import Mathlib

/-!
Shallow embedding of `hexrd/rotations.py` (quaternion algebra, symmetry
reduction, misorientation, fiber generation and angle utilities), with
floating-point numbers idealized as real numbers.  Quaternion batches
(`4 x n` numpy arrays) are modelled as lists of columns; each column is a
`Quat` record `[q0, q1, q2, q3]` with `q0` the scalar part.
-/

namespace HexrdRot

noncomputable section

/-- One column of a `4 x n` quaternion batch: `[q0, q1, q2, q3]`,
`q0` the scalar component. -/
@[ext]
structure Quat where
  q0 : ℝ
  q1 : ℝ
  q2 : ℝ
  q3 : ℝ

/-- Scalar multiple of a quaternion column (numpy broadcasting `c * q`). -/
def Quat.smul (c : ℝ) (q : Quat) : Quat :=
  ⟨c * q.q0, c * q.q1, c * q.q2, c * q.q3⟩

/-- Columnwise negation `-1 * q`. -/
def Quat.neg (q : Quat) : Quat :=
  ⟨-q.q0, -q.q1, -q.q2, -q.q3⟩

/-- Squared euclidean norm of a column. -/
def Quat.normSq (q : Quat) : ℝ :=
  q.q0 ^ 2 + q.q1 ^ 2 + q.q2 ^ 2 + q.q3 ^ 2

/-- The identity quaternion `[1, 0, 0, 0]` (`c_[1., 0, 0, 0].T` in the source). -/
def qid : Quat := ⟨1, 0, 0, 0⟩

/-- The zero quaternion, used only as an out-of-range default when indexing. -/
def qzero : Quat := ⟨0, 0, 0, 0⟩

/-- Modelled from the spec: `hexrd.matrixutil.unitVector` is imported by
`rotations.py` but its module is not in `src/`; per the spec (§4.1) it
"normalizes each column to unit length".  A zero column is mapped to the
zero column (`(Real.sqrt 0)⁻¹ = 0`), matching numpy's guarded division. -/
def unitVector (q : Quat) : Quat :=
  Quat.smul (Real.sqrt q.normSq)⁻¹ q

/-- `fixQuat` (rotations.py:153): normalize each column with `unitVector`,
then flip the sign of any column whose scalar component is negative.
The 3-d reshape branch only permutes columns, so the batch version is the
columnwise map of this function. -/
def fixQuat (q : Quat) : Quat :=
  if (unitVector q).q0 < 0 then (unitVector q).neg else unitVector q

/-- `invertQuat` (rotations.py:174): multiply componentwise by
`[-1, 1, 1, 1]`, then `fixQuat`. -/
def invertQuat (q : Quat) : Quat :=
  fixQuat ⟨-q.q0, q.q1, q.q2, q.q3⟩

/-- The quaternion product realized by `quatProductMatrix`
(rotations.py:316): unravelling the `reshape`/`transpose` reshuffling of
the `mult='right'` branch, column `q` is sent to the column whose
components are the rows of the transposed 4x4 block applied to `q`, i.e.
`qmul q h = quatProductMatrix(h, 'right') @ q` and equally
`qmul q h = quatProductMatrix(q, 'left') @ h` (the docstring's `q * h`). -/
def qmul (q h : Quat) : Quat :=
  ⟨q.q0 * h.q0 - q.q1 * h.q1 - q.q2 * h.q2 - q.q3 * h.q3,
   q.q0 * h.q1 + q.q1 * h.q0 + q.q2 * h.q3 - q.q3 * h.q2,
   q.q0 * h.q2 - q.q1 * h.q3 + q.q2 * h.q0 + q.q3 * h.q1,
   q.q0 * h.q3 + q.q1 * h.q2 - q.q2 * h.q1 + q.q3 * h.q0⟩

-- ## Basic lemmas about the quaternion core

lemma normSq_nonneg (q : Quat) : 0 ≤ q.normSq := by
  unfold Quat.normSq; positivity

lemma normSq_smul (c : ℝ) (q : Quat) :
    (Quat.smul c q).normSq = c ^ 2 * q.normSq := by
  simp only [Quat.smul, Quat.normSq]; ring

lemma normSq_neg (q : Quat) : q.neg.normSq = q.normSq := by
  simp only [Quat.neg, Quat.normSq]; ring

lemma eq_qzero_of_normSq_eq_zero {q : Quat} (h : q.normSq = 0) : q = qzero := by
  have h' : q.q0 ^ 2 + q.q1 ^ 2 + q.q2 ^ 2 + q.q3 ^ 2 = 0 := h
  have h0 : q.q0 = 0 := by
    have : q.q0 ^ 2 = 0 := by
      nlinarith [sq_nonneg q.q1, sq_nonneg q.q2, sq_nonneg q.q3]
    exact pow_eq_zero_iff (two_ne_zero) |>.mp this
  have h1 : q.q1 = 0 := by
    have : q.q1 ^ 2 = 0 := by
      nlinarith [sq_nonneg q.q0, sq_nonneg q.q2, sq_nonneg q.q3]
    exact pow_eq_zero_iff (two_ne_zero) |>.mp this
  have h2 : q.q2 = 0 := by
    have : q.q2 ^ 2 = 0 := by
      nlinarith [sq_nonneg q.q0, sq_nonneg q.q1, sq_nonneg q.q3]
    exact pow_eq_zero_iff (two_ne_zero) |>.mp this
  have h3 : q.q3 = 0 := by
    have : q.q3 ^ 2 = 0 := by
      nlinarith [sq_nonneg q.q0, sq_nonneg q.q1, sq_nonneg q.q2]
    exact pow_eq_zero_iff (two_ne_zero) |>.mp this
  ext <;> simp [qzero, h0, h1, h2, h3]

lemma smul_one (q : Quat) : Quat.smul 1 q = q := by
  ext <;> simp [Quat.smul]

lemma unitVector_normSq {q : Quat} (h : q.normSq ≠ 0) :
    (unitVector q).normSq = 1 := by
  have hpos : 0 < q.normSq := lt_of_le_of_ne (normSq_nonneg q) (Ne.symm h)
  have hs : 0 < Real.sqrt q.normSq := Real.sqrt_pos.mpr hpos
  rw [unitVector, normSq_smul, inv_pow, Real.sq_sqrt (le_of_lt hpos)]
  field_simp

lemma unitVector_qzero : unitVector qzero = qzero := by
  ext <;> simp [unitVector, qzero, Quat.smul]

lemma unitVector_of_normSq_one {q : Quat} (h : q.normSq = 1) :
    unitVector q = q := by
  rw [unitVector, h, Real.sqrt_one, inv_one, smul_one]

lemma fixQuat_normSq {q : Quat} (h : q.normSq ≠ 0) :
    (fixQuat q).normSq = 1 := by
  rw [fixQuat]
  by_cases hb : (unitVector q).q0 < 0
  · simp only [hb, if_true, normSq_neg, unitVector_normSq h]
  · simp only [hb, if_false, unitVector_normSq h]

lemma fixQuat_q0_nonneg (q : Quat) : 0 ≤ (fixQuat q).q0 := by
  rw [fixQuat]
  by_cases hb : (unitVector q).q0 < 0
  · simp only [hb, if_true, Quat.neg]
    linarith
  · simp only [hb, if_false]
    linarith [not_lt.mp hb]

lemma fixQuat_q0_le_one (q : Quat) : (fixQuat q).q0 ≤ 1 := by
  by_cases h : q.normSq = 0
  · have hz : q = qzero := eq_qzero_of_normSq_eq_zero h
    subst hz
    simp only [fixQuat, unitVector_qzero]
    norm_num [qzero, Quat.neg]
  · have h1 : (fixQuat q).normSq = 1 := fixQuat_normSq h
    have : (fixQuat q).q0 ^ 2 ≤ 1 := by
      have := normSq_nonneg (fixQuat q)
      unfold Quat.normSq at h1
      nlinarith [sq_nonneg (fixQuat q).q1, sq_nonneg (fixQuat q).q2,
        sq_nonneg (fixQuat q).q3]
    nlinarith [fixQuat_q0_nonneg q]

lemma fixQuat_of_fixed {q : Quat} (h1 : q.normSq = 1) (h0 : 0 ≤ q.q0) :
    fixQuat q = q := by
  rw [fixQuat, unitVector_of_normSq_one h1]
  simp [not_lt.mpr h0]

lemma fixQuat_fixQuat {q : Quat} (h : q.normSq ≠ 0) :
    fixQuat (fixQuat q) = fixQuat q :=
  fixQuat_of_fixed (fixQuat_normSq h) (fixQuat_q0_nonneg q)

lemma qmul_qid (q : Quat) : qmul q qid = q := by
  ext <;> simp [qmul, qid]

lemma qid_qmul (q : Quat) : qmul qid q = q := by
  ext <;> simp [qmul, qid]

lemma fixQuat_qid : fixQuat qid = qid :=
  fixQuat_of_fixed (by norm_num [Quat.normSq, qid]) (by norm_num [qid])

lemma fixQuat_neg_qid : fixQuat ⟨-1, 0, 0, 0⟩ = qid := by
  have h1 : (⟨-1, 0, 0, 0⟩ : Quat).normSq = 1 := by norm_num [Quat.normSq]
  rw [fixQuat, unitVector_of_normSq_one h1]
  norm_num [Quat.neg, qid]

/-- For a unit column, the product with its `invertQuat` image sign-fixes
to the identity quaternion. -/
lemma fixQuat_qmul_invertQuat {q : Quat} (h : q.normSq = 1) :
    fixQuat (qmul q (invertQuat q)) = qid := by
  have h' : q.q0 ^ 2 + q.q1 ^ 2 + q.q2 ^ 2 + q.q3 ^ 2 = 1 := h
  have hc : (⟨-q.q0, q.q1, q.q2, q.q3⟩ : Quat).normSq = 1 := by
    simp only [Quat.normSq, neg_sq]
    linarith
  have hinv : invertQuat q =
      if (⟨-q.q0, q.q1, q.q2, q.q3⟩ : Quat).q0 < 0
      then Quat.neg ⟨-q.q0, q.q1, q.q2, q.q3⟩
      else ⟨-q.q0, q.q1, q.q2, q.q3⟩ := by
    rw [invertQuat, fixQuat, unitVector_of_normSq_one hc]
  by_cases hb : (⟨-q.q0, q.q1, q.q2, q.q3⟩ : Quat).q0 < 0
  · rw [hinv, if_pos hb]
    have hm : qmul q (Quat.neg ⟨-q.q0, q.q1, q.q2, q.q3⟩) = qid := by
      ext
      · simp only [qmul, Quat.neg, qid]; nlinarith [h']
      · simp only [qmul, Quat.neg, qid]; ring
      · simp only [qmul, Quat.neg, qid]; ring
      · simp only [qmul, Quat.neg, qid]; ring
    rw [hm, fixQuat_qid]
  · rw [hinv, if_neg hb]
    have hm : qmul q ⟨-q.q0, q.q1, q.q2, q.q3⟩ = ⟨-1, 0, 0, 0⟩ := by
      ext
      · simp only [qmul]; nlinarith [h']
      · simp only [qmul]; ring
      · simp only [qmul]; ring
      · simp only [qmul]; ring
    rw [hm, fixQuat_neg_qid]

-- ## argmax / max helpers (numpy `argmax` and `.max`)

/-- numpy `argmax` over scalar components: the first column attaining the
maximal `q0` (ties keep the earliest index).  numpy raises on an empty
array, so the `[]` case is an arbitrary default, unreachable in the
source's calls. -/
def argmaxQ0 : List Quat → Quat
  | [] => qzero
  | x :: xs => xs.foldl (fun best y => if best.q0 < y.q0 then y else best) x

lemma foldl_argmaxQ0_ge (xs : List Quat) (b : Quat) :
    b.q0 ≤ (xs.foldl (fun best y => if best.q0 < y.q0 then y else best) b).q0 ∧
    ∀ y ∈ xs,
      y.q0 ≤ (xs.foldl (fun best y => if best.q0 < y.q0 then y else best) b).q0 := by
  induction xs generalizing b with
  | nil => simp
  | cons z zs ih =>
    simp only [List.foldl_cons]
    have hbb : b.q0 ≤ (if b.q0 < z.q0 then z else b).q0 ∧
        z.q0 ≤ (if b.q0 < z.q0 then z else b).q0 := by
      by_cases hlt : b.q0 < z.q0
      · rw [if_pos hlt]; exact ⟨le_of_lt hlt, le_refl _⟩
      · rw [if_neg hlt]; exact ⟨le_refl _, not_lt.mp hlt⟩
    refine ⟨le_trans hbb.1 (ih _).1, ?_⟩
    intro y hy
    rcases List.mem_cons.mp hy with rfl | hy
    · exact le_trans hbb.2 (ih _).1
    · exact (ih _).2 y hy

lemma argmaxQ0_ge (l : List Quat) : ∀ y ∈ l, y.q0 ≤ (argmaxQ0 l).q0 := by
  cases l with
  | nil => simp
  | cons x xs =>
    intro y hy
    rcases List.mem_cons.mp hy with rfl | hy
    · exact (foldl_argmaxQ0_ge xs y).1
    · exact (foldl_argmaxQ0_ge xs x).2 y hy

/-- numpy `.max` over a list of scalars.  The fold starts at `0`; in every
call below the scalars are the nonnegative `q0` of sign-fixed columns and
the list is nonempty, where this agrees with numpy's maximum (numpy raises
on an empty array). -/
def maxList (l : List ℝ) : ℝ := l.foldr max 0

lemma maxList_cons (z : ℝ) (zs : List ℝ) : maxList (z :: zs) = max z (maxList zs) :=
  rfl

lemma le_maxList {l : List ℝ} {x : ℝ} (hx : x ∈ l) : x ≤ maxList l := by
  induction l with
  | nil => cases hx
  | cons z zs ih =>
    rw [maxList_cons]
    rcases List.mem_cons.mp hx with rfl | hx
    · exact le_max_left _ _
    · exact le_trans (ih hx) (le_max_right _ _)

lemma maxList_le {l : List ℝ} {b : ℝ} (hb : 0 ≤ b) (h : ∀ x ∈ l, x ≤ b) :
    maxList l ≤ b := by
  induction l with
  | nil => simpa [maxList]
  | cons z zs ih =>
    rw [maxList_cons]
    exact max_le (h z (List.mem_cons_self _ _))
      (ih fun x hx => h x (List.mem_cons_of_mem _ hx))

-- ## arccosSafe

/-- The clamp performed by `arccosSafe` (rotations.py:122-126): entries
`>= 1` are set to `1`, entries `<= -1` are set to `-1`, others unchanged. -/
def clampPM1 (x : ℝ) : ℝ :=
  if 1 ≤ x then 1 else if x ≤ -1 then -1 else x

/-- `arccosSafe` (rotations.py:112): raise `RuntimeError` if any entry
exceeds `1.00001` in magnitude, otherwise clamp to `[-1, 1]` and take the
elementwise `arccos`. -/
def arccosSafe (temp : List ℝ) : Except String (List ℝ) :=
  if ∃ x ∈ temp, 1.00001 < |x| then .error "unrecoverable error"
  else .ok (temp.map fun x => Real.arccos (clampPM1 x))

-- ## Fundamental region

/-- The error signals raised by `rotations.py`. -/
inductive RotErr
  | notImplemented
  | runtimeError (msg : String)
deriving DecidableEq

/-- One column of the crystal-only fundamental-region reduction
(rotations.py:1290, `sampSym is None` branch): form the equivalence class
`q * g` over every symmetry operator `g` (`quatProductMatrix(..., 'right')`
applied to the batch), `fixQuat` it, and take the class member of maximal
scalar component (`argmax`, first index on ties). -/
def toFundamentalRegionCol (sym : List Quat) (q : Quat) : Quat :=
  argmaxQ0 (sym.map fun g => fixQuat (qmul q g))

/-- `toFundamentalRegion` (rotations.py:1290) on a batch of columns.  The
3-d input branch only flattens and restores the column list, and a
tag-valued `crysSym` is resolved through `quatOfLaueGroup` into a
quaternion batch before use, so the function is modelled on the resolved
batch.  With a non-`None` `sampSym` the source computes the combined
equivalence class and then unconditionally raises `NotImplementedError`;
the computed value is discarded. -/
def toFundamentalRegion (q : List Quat) (crysSym : List Quat)
    (sampSym : Option (List Quat)) : Except RotErr (List Quat) :=
  match sampSym with
  | none => .ok (q.map (toFundamentalRegionCol crysSym))
  | some _ => .error .notImplemented

-- ## quatProductMatrix as an explicit 4x4 operator

/-- The flat `[q0, q1, q2, q3]` column as a 4-vector. -/
def Quat.toVec (q : Quat) : Fin 4 → ℝ :=
  ![q.q0, q.q1, q.q2, q.q3]

/-- The `mult` keyword of `quatProductMatrix` ('left' or 'right'; any other
string leaves `qmats` unbound in the source). -/
inductive Mult
  | left
  | right

/-- `quatProductMatrix` (rotations.py:316) for one input column: the 4x4
left/right quaternion product operator.  The matrices are obtained from
the source's stacking `array([[q0],[q1],...])` of sixteen rows followed by
`.T.reshape(nq, 4, 4).transpose(0, 2, 1)`: reading the stacked entries
four at a time gives the rows of the pre-transpose block and the final
`transpose(0, 2, 1)` transposes each block. -/
def quatProductMatrix (q : Quat) : Mult → Matrix (Fin 4) (Fin 4) ℝ
  | .right =>
      !![q.q0, -q.q1, -q.q2, -q.q3;
         q.q1,  q.q0,  q.q3, -q.q2;
         q.q2, -q.q3,  q.q0,  q.q1;
         q.q3,  q.q2, -q.q1,  q.q0]
  | .left =>
      !![q.q0, -q.q1, -q.q2, -q.q3;
         q.q1,  q.q0, -q.q3,  q.q2;
         q.q2,  q.q3,  q.q0, -q.q1;
         q.q3, -q.q2,  q.q1,  q.q0]

-- ## quatOfAngleAxis (through the scipy rotation helpers)

/-- One column of a `3 x n` array. -/
@[ext]
structure Vec3 where
  x : ℝ
  y : ℝ
  z : ℝ

/-- Squared euclidean norm of a 3-vector column. -/
def Vec3.normSq (v : Vec3) : ℝ := v.x ^ 2 + v.y ^ 2 + v.z ^ 2

/-- Scalar multiple of a 3-vector column. -/
def Vec3.smul (c : ℝ) (v : Vec3) : Vec3 := ⟨c * v.x, c * v.y, c * v.z⟩

/-- Columnwise sum of two 3-vectors. -/
def Vec3.add (a b : Vec3) : Vec3 := ⟨a.x + b.x, a.y + b.y, a.z + b.z⟩

/-- Modelled from the spec: `hexrd.matrixutil.columnNorm` is not in
`src/`; it is the euclidean norm of each column. -/
def columnNorm (v : Vec3) : ℝ := Real.sqrt v.normSq

/-- Modelled from the spec: `hexrd.matrixutil.unitVector` on a 3-vector
column (normalize to unit length; zero columns map to zero). -/
def unitVector3 (v : Vec3) : Vec3 := Vec3.smul (Real.sqrt v.normSq)⁻¹ v

/-- numpy `sign`: `-1`, `0` or `1` by the sign of the argument
(`np.sign(0) = 0`). -/
def npSign (x : ℝ) : ℝ := if x < 0 then -1 else if x = 0 then 0 else 1

/-- `quatOfAngleAxis` (rotations.py:367) for one angle/axis pair, through
the external scipy runtime: the axis is normalized (rotations.py:390),
`R.from_rotvec` stores the quaternion `[sin(θ/2)·n̂, cos(θ/2)]` in scipy's
xyzw order (the formula is valid for negative angles too), and
`_scipy_rotation_to_quat` (rotations.py:146) rolls the scalar component
first and multiplies each column by `np.sign` of its scalar component. -/
def quatOfAngleAxis (angle : ℝ) (rotaxis : Vec3) : Quat :=
  let n := unitVector3 rotaxis
  let q : Quat := ⟨Real.cos (angle / 2), Real.sin (angle / 2) * n.x,
    Real.sin (angle / 2) * n.y, Real.sin (angle / 2) * n.z⟩
  Quat.smul (npSign q.q0) q

-- ## Misorientation

/-- The flattened `p*m*n`-column equivalence class formed by
`misorientation` (rotations.py:246-269) for a single target column `q2`
(`n = 1`): `fixQuat((gs * (q2 * gc)) * invertQuat(q1))` with `gc` over the
crystal (right) symmetries and `gs` over the sample (left) symmetries;
the column order of the flattening does not affect the maximum taken. -/
def misorientationCls (q1 q2 : Quat) (csym ssym : List Quat) : List Quat :=
  (csym.map fun gc => qmul q2 gc).flatMap fun c =>
    ssym.map fun gs => fixQuat (qmul (qmul gs c) (invertQuat q1))

/-- `misorientation` (rotations.py:187) for one target column: the maximal
sign-fixed scalar component over the equivalence class, pushed through the
`arccosSafe` guard and clamp, doubled (rotations.py:287). -/
def misorientationAngle (q1 q2 : Quat) (csym ssym : List Quat) :
    Except String ℝ :=
  let qmax := maxList ((misorientationCls q1 q2 csym ssym).map Quat.q0)
  if 1.00001 < |qmax| then .error "unrecoverable error"
  else .ok (2 * Real.arccos (clampPM1 qmax))

/-- `misorientation(q1, q2, (qsym,))`: the 1-tuple symmetry path
(rotations.py:226-231) appends the triclinic identity sample symmetry. -/
def misorientation (q1 q2 : Quat) (qsym : List Quat) : Except String ℝ :=
  misorientationAngle q1 q2 qsym [qid]

-- ## discreteFiber axis selection

/-- Modelled from the spec: `hexrd.constants.sqrt_epsf` is not in `src/`;
it is the square root of the double-precision machine epsilon `2⁻⁵²`,
i.e. `2⁻²⁶`. -/
def sqrt_epsf : ℝ := ((2 : ℝ) ^ (26 : ℕ))⁻¹

/-- Modelled from the spec: `hexrd.matrixutil.nullSpace` is not in `src/`;
`discreteFiber` takes `nspace[:, 0].reshape(3, 1)`, "a vector from the
null space of `c`" (spec §4.5), i.e. a unit vector orthogonal to `c`. -/
def hperp (c : Vec3) : Vec3 :=
  if c.x = 0 ∧ c.y = 0 then ⟨1, 0, 0⟩ else unitVector3 ⟨-c.y, c.x, 0⟩

/-- `okay.sum()` (rotations.py:1131-1132): the number of columns of
`s + c` whose norm exceeds the tolerance `ztol = cnst.sqrt_epsf`. -/
def countOkay : List Vec3 → ℕ
  | [] => 0
  | a :: rest => (if sqrt_epsf < columnNorm a then 1 else 0) + countOkay rest

/-- The rotation-axis selection of `discreteFiber` (rotations.py:1124-1144)
for one crystal direction `c` (already a unit vector) and the batch of
unit sample directions `s`: per column the half-angle bisector `s + c`,
normalized where its norm exceeds the tolerance.  If every column is okay
all are normalized; if none is, the null-space substitute `hperp c` is
used for every column (`ax = tile(hperp, (1, npts))`); in the mixed branch
the source evaluates `not okay` where `okay` is a numpy boolean array of
length at least 2, which raises `ValueError` (python's `not` is not an
elementwise negation), so no value is returned there. -/
def discreteFiberAxes (c : Vec3) (s : List Vec3) : Except String (List Vec3) :=
  let ax := s.map fun sj => Vec3.add sj c
  let nokay := countOkay ax
  if nokay = s.length then .ok (ax.map unitVector3)
  else if nokay = 0 then .ok (s.map fun _ => hperp c)
  else .error "ValueError: ambiguous truth value of a boolean array"

-- ## Angle utilities

/-- The recognized angular-unit strings (the keys of `periodDict`,
rotations.py:80); any other string raises in both implementations
(`KeyError` in `angularDifference_opt`, `RuntimeError` in
`angularDifference_orig`). -/
inductive AngularUnits
  | degrees
  | radians

/-- `periodDict` (rotations.py:80): the full period for each unit. -/
def periodDict : AngularUnits → ℝ
  | .degrees => 360
  | .radians => 2 * Real.pi

/-- numpy `mod` on reals: floored modulo `a - p * ⌊a / p⌋`. -/
def npMod (a p : ℝ) : ℝ := a - p * ⌊a / p⌋

/-- `angularDifference_orig` (rotations.py:1220):
`abs(mod(diff + 0.5*period, period) - 0.5*period)` with
`diff = angList0 - angList1`. -/
def angularDifference_orig (angList0 angList1 : ℝ) (units : AngularUnits) : ℝ :=
  |npMod (angList0 - angList1 + 0.5 * periodDict units) (periodDict units)
    - 0.5 * periodDict units|

/-- `angularDifference_opt` (rotations.py:1242), the exported
`angularDifference`: `min(d, period - d)` with `d = abs(angList1 - angList0)`. -/
def angularDifference_opt (angList0 angList1 : ℝ) (units : AngularUnits) : ℝ :=
  min |angList1 - angList0| (periodDict units - |angList1 - angList0|)

lemma periodDict_pos (u : AngularUnits) : 0 < periodDict u := by
  cases u
  · norm_num [periodDict]
  · simp only [periodDict]
    positivity

-- ## Claim theorems

/-- C1: for every quaternion batch and every crystal symmetry group given
as a quaternion batch (a tag first resolves through `quatOfLaueGroup` to
such a batch; 3-d inputs are flattened to the same column list), with
`sampSym` absent, each column of `toFundamentalRegion` has scalar
component at least the scalar component of every sign-fixed member of
that column's crystal-symmetry equivalence class. -/
theorem toFundamentalRegion_q0_max (qs sym rs : List Quat)
    (hrs : toFundamentalRegion qs sym none = .ok rs)
    (i : ℕ) (hi : i < qs.length) (g : Quat) (hg : g ∈ sym) :
    (fixQuat (qmul (qs.getD i qzero) g)).q0 ≤ (rs.getD i qzero).q0 := by
  have hr : rs = qs.map (toFundamentalRegionCol sym) := by
    have := hrs
    rw [toFundamentalRegion] at this
    exact (Except.ok.injEq _ _).mp this.symm
  subst hr
  have hi' : i < (qs.map (toFundamentalRegionCol sym)).length := by
    simpa using hi
  have hget : (qs.map (toFundamentalRegionCol sym)).getD i qzero
      = toFundamentalRegionCol sym (qs.getD i qzero) := by
    rw [List.getD_eq_getElem _ _ hi', List.getElem_map,
      ← List.getD_eq_getElem _ _ hi]
  rw [hget, toFundamentalRegionCol]
  exact argmaxQ0_ge _ _ (List.mem_map.mpr ⟨g, hg, rfl⟩)

theorem toFundamentalRegion_q0_max_witness :
    toFundamentalRegion [qid] [qid] none = .ok [qid] ∧
    (fixQuat (qmul (([qid] : List Quat).getD 0 qzero) qid)).q0 ≤
      (([qid] : List Quat).getD 0 qzero).q0 := by
  have hok : toFundamentalRegion [qid] [qid] none = .ok [qid] := by
    simp [toFundamentalRegion, toFundamentalRegionCol, argmaxQ0,
      qmul_qid, fixQuat_qid]
  exact ⟨hok,
    toFundamentalRegion_q0_max [qid] [qid] [qid] hok 0 (by simp) qid
      (List.mem_singleton_self _)⟩

/-- C2: for a unit quaternion column `q` and any symmetry batch containing
the identity quaternion, `misorientation(q, q, (qsym,))` returns
misorientation angle `0` for the single target. -/
theorem misorientation_self_zero (q : Quat) (qsym : List Quat)
    (hq : q.normSq = 1) (hid : qid ∈ qsym) :
    misorientation q q qsym = .ok 0 := by
  have hmem : qid ∈ misorientationCls q q qsym [qid] := by
    rw [misorientationCls]
    apply List.mem_flatMap.mpr
    refine ⟨qmul q qid, List.mem_map.mpr ⟨qid, hid, rfl⟩, ?_⟩
    have : fixQuat (qmul (qmul qid (qmul q qid)) (invertQuat q)) = qid := by
      rw [qmul_qid, qid_qmul, fixQuat_qmul_invertQuat hq]
    simp only [List.map_cons, List.map_nil, this]
    exact List.mem_singleton_self _
  have hub : ∀ x ∈ (misorientationCls q q qsym [qid]).map Quat.q0, x ≤ 1 := by
    intro x hx
    obtain ⟨e, he, rfl⟩ := List.mem_map.mp hx
    rw [misorientationCls] at he
    obtain ⟨c, _, he2⟩ := List.mem_flatMap.mp he
    obtain ⟨gs, _, rfl⟩ := List.mem_map.mp he2
    exact fixQuat_q0_le_one _
  have hmax : maxList ((misorientationCls q q qsym [qid]).map Quat.q0) = 1 := by
    refine le_antisymm (maxList_le (by norm_num) hub) ?_
    exact le_maxList (List.mem_map.mpr ⟨qid, hmem, rfl⟩)
  rw [misorientation, misorientationAngle]
  simp only [hmax]
  rw [if_neg (by norm_num)]
  norm_num [clampPM1, Real.arccos_one]

theorem misorientation_self_zero_witness :
    Quat.normSq qid = 1 ∧ misorientation qid qid [qid] = .ok 0 :=
  ⟨by norm_num [qid, Quat.normSq],
    misorientation_self_zero qid [qid] (by norm_num [qid, Quat.normSq])
      (List.mem_singleton_self _)⟩

/-- C4: on a batch of nonzero columns, every column of `fixQuat` has unit
norm and nonnegative scalar component, and `fixQuat` is idempotent on the
batch. -/
theorem fixQuat_spec (qs : List Quat) (hnz : ∀ q ∈ qs, q.normSq ≠ 0) :
    (∀ r ∈ qs.map fixQuat, r.normSq = 1 ∧ 0 ≤ r.q0) ∧
    (qs.map fixQuat).map fixQuat = qs.map fixQuat := by
  constructor
  · intro r hr
    obtain ⟨q, hq, rfl⟩ := List.mem_map.mp hr
    exact ⟨fixQuat_normSq (hnz q hq), fixQuat_q0_nonneg q⟩
  · rw [List.map_map]
    apply List.map_congr_left
    intro q hq
    exact fixQuat_fixQuat (hnz q hq)

theorem fixQuat_spec_witness :
    (∀ q ∈ [qid], Quat.normSq q ≠ 0) ∧
    ((∀ r ∈ ([qid] : List Quat).map fixQuat, r.normSq = 1 ∧ 0 ≤ r.q0) ∧
      (([qid] : List Quat).map fixQuat).map fixQuat
        = ([qid] : List Quat).map fixQuat) := by
  have h : ∀ q ∈ [qid], Quat.normSq q ≠ 0 := by
    intro q hq
    rw [List.mem_singleton] at hq
    subst hq
    norm_num [qid, Quat.normSq]
  exact ⟨h, fixQuat_spec [qid] h⟩

/-- C6: `arccosSafe` raises when any entry exceeds `1.00001` in magnitude,
and otherwise returns the elementwise `arccos` of the clamped entries;
the clamp sends entries `>= 1` to `1`, entries `<= -1` to `-1`, and is
the identity on `[-1, 1]`. -/
theorem arccosSafe_spec (l : List ℝ) :
    ((∃ x ∈ l, 1.00001 < |x|) → arccosSafe l = .error "unrecoverable error") ∧
    ((∀ x ∈ l, |x| ≤ 1.00001) →
      arccosSafe l = .ok (l.map fun x => Real.arccos (clampPM1 x))) ∧
    (∀ x : ℝ, (1 ≤ x → clampPM1 x = 1) ∧ (x ≤ -1 → clampPM1 x = -1) ∧
      (|x| ≤ 1 → clampPM1 x = x)) := by
  refine ⟨?_, ?_, ?_⟩
  · intro h
    rw [arccosSafe, if_pos h]
  · intro h
    have hne : ¬ ∃ x ∈ l, 1.00001 < |x| := by
      push_neg
      exact h
    rw [arccosSafe, if_neg hne]
  · intro x
    refine ⟨?_, ?_, ?_⟩
    · intro hx
      rw [clampPM1, if_pos hx]
    · intro hx
      rw [clampPM1, if_neg (by linarith), if_pos hx]
    · intro hx
      rcases abs_le.mp hx with ⟨hlo, hhi⟩
      by_cases he : 1 ≤ x
      · rw [clampPM1, if_pos he]
        linarith
      · rw [clampPM1, if_neg he]
        by_cases he2 : x ≤ -1
        · rw [if_pos he2]
          linarith
        · rw [if_neg he2]

theorem arccosSafe_spec_witness :
    (∃ x ∈ [(2 : ℝ)], 1.00001 < |x|) ∧
    arccosSafe [(2 : ℝ)] = .error "unrecoverable error" := by
  have h : ∃ x ∈ [(2 : ℝ)], 1.00001 < |x| := by
    refine ⟨2, List.mem_singleton_self _, ?_⟩
    rw [abs_of_nonneg (by norm_num)]
    norm_num
  exact ⟨h, (arccosSafe_spec [(2 : ℝ)]).1 h⟩

/-- C7: with any non-`None` `sampSym` argument, `toFundamentalRegion`
raises the distinct not-implemented signal instead of returning. -/
theorem toFundamentalRegion_sampSym_notImplemented
    (qs crysSym ss : List Quat) :
    toFundamentalRegion qs crysSym (some ss) = .error RotErr.notImplemented :=
  rfl

/-- C3: for all quaternion columns `q` and `h`,
`quatProductMatrix(q, 'right') @ h` equals
`quatProductMatrix(h, 'left') @ q`, and (the docstring's sign convention,
rotations.py:329-331) `quatProductMatrix(h, 'right') @ q` is the Hamilton
product `qmul q h` — so both displayed contractions compute the Hamilton
product of the swapped pair. -/
theorem quatProductMatrix_right_left (q h : Quat) :
    (quatProductMatrix q Mult.right).mulVec h.toVec
      = (quatProductMatrix h Mult.left).mulVec q.toVec ∧
    (quatProductMatrix h Mult.right).mulVec q.toVec = (qmul q h).toVec := by
  constructor <;>
  · funext i
    fin_cases i <;>
      simp [quatProductMatrix, Quat.toVec, qmul, Matrix.mulVec,
        Matrix.dotProduct, Fin.sum_univ_four] <;>
      ring

/-- C5: in exact (real) arithmetic the claim fails: for `angle = π` the
scalar component `cos(π/2)` is exactly `0`, `np.sign(0) = 0`, and the
final line of `_scipy_rotation_to_quat` multiplies the whole column by it,
returning the zero quaternion `[0,0,0,0]` instead of the documented
`[0,0,0,1]` (floating-point runs escape this only because
`cos(fl(π)/2) ≈ 6.1e-17 > 0`). -/
theorem quatOfAngleAxis_pi_zaxis :
    quatOfAngleAxis Real.pi ⟨0, 0, 1⟩ = qzero := by
  have h1 : (⟨0, 0, 1⟩ : Vec3).normSq = 1 := by norm_num [Vec3.normSq]
  have hn : unitVector3 ⟨0, 0, 1⟩ = ⟨0, 0, 1⟩ := by
    rw [unitVector3, h1, Real.sqrt_one, inv_one]
    ext <;> norm_num [Vec3.smul]
  simp only [quatOfAngleAxis, hn, Real.cos_pi_div_two]
  have hs : npSign 0 = 0 := by norm_num [npSign]
  rw [hs]
  ext <;> simp [Quat.smul, qzero]

/-- C8: when every bisector column is degenerate the null-space axis is
substituted and a fiber is returned, but in the mixed case (here: `s` has
an anti-parallel and a generic column) the source crashes at
`ax[:, not okay]` — python's `not` on a length-2 boolean array raises
`ValueError` — instead of substituting the null-space axis. -/
theorem discreteFiberAxes_degenerate :
    discreteFiberAxes ⟨0, 0, 1⟩ [⟨0, 0, -1⟩] = .ok [hperp ⟨0, 0, 1⟩] ∧
    discreteFiberAxes ⟨0, 0, 1⟩ [⟨0, 0, -1⟩, ⟨1, 0, 0⟩]
      = .error "ValueError: ambiguous truth value of a boolean array" := by
  have hz : columnNorm (Vec3.add ⟨0, 0, -1⟩ ⟨0, 0, 1⟩) = 0 := by
    norm_num [columnNorm, Vec3.add, Vec3.normSq, Real.sqrt_zero]
  have hepos : (0 : ℝ) < sqrt_epsf := by norm_num [sqrt_epsf]
  have hnot : ¬ sqrt_epsf < columnNorm (Vec3.add ⟨0, 0, -1⟩ ⟨0, 0, 1⟩) := by
    rw [hz]
    exact not_lt.mpr (le_of_lt hepos)
  have hx : sqrt_epsf < columnNorm (Vec3.add ⟨1, 0, 0⟩ ⟨0, 0, 1⟩) := by
    have h2 : columnNorm (Vec3.add ⟨1, 0, 0⟩ ⟨0, 0, 1⟩) = Real.sqrt 2 := by
      norm_num [columnNorm, Vec3.add, Vec3.normSq]
    have h3 : (1 : ℝ) ≤ Real.sqrt 2 := by
      rw [show (1 : ℝ) = Real.sqrt 1 by rw [Real.sqrt_one]]
      exact Real.sqrt_le_sqrt (by norm_num)
    have h4 : sqrt_epsf < 1 := by norm_num [sqrt_epsf]
    rw [h2]
    linarith
  constructor
  · simp only [discreteFiberAxes, List.map_cons, List.map_nil, countOkay,
      List.length_cons, List.length_nil]
    rw [if_neg hnot]
    norm_num
  · simp only [discreteFiberAxes, List.map_cons, List.map_nil, countOkay,
      List.length_cons, List.length_nil]
    rw [if_neg hnot, if_pos hx]
    norm_num

/-- C9: for every recognized unit, `angularDifference(θ, θ, units) = 0`,
`angularDifference` is symmetric in its two angle arguments, and its
result is bounded above by half the period. -/
theorem angularDifference_props (u : AngularUnits) (θ a b : ℝ) :
    angularDifference_opt θ θ u = 0 ∧
    angularDifference_opt a b u = angularDifference_opt b a u ∧
    angularDifference_opt a b u ≤ periodDict u / 2 := by
  have hp := periodDict_pos u
  refine ⟨?_, ?_, ?_⟩
  · rw [angularDifference_opt, sub_self, abs_zero, sub_zero]
    exact min_eq_left (le_of_lt hp)
  · rw [angularDifference_opt, angularDifference_opt, abs_sub_comm]
  · rw [angularDifference_opt]
    rcases le_total |b - a| (periodDict u - |b - a|) with hle | hle
    · rw [min_eq_left hle]
      linarith
    · rw [min_eq_right hle]
      linarith

/-- Key identity behind C10: for `0 < p` and `|x| ≤ p`, the branch-cut
formula of `angularDifference_orig` agrees with the `min` formula of
`angularDifference_opt`. -/
lemma npMod_shift_abs {p x : ℝ} (hp : 0 < p) (hx : |x| ≤ p) :
    |npMod (x + 0.5 * p) p - 0.5 * p| = min |x| (p - |x|) := by
  rcases abs_le.mp hx with ⟨hlo, hhi⟩
  rcases lt_or_le x (-(0.5) * p) with hA | h1
  · have hfl : ⌊(x + 0.5 * p) / p⌋ = -1 := by
      rw [Int.floor_eq_iff]
      push_cast
      constructor
      · rw [le_div_iff₀ hp]
        linarith
      · rw [div_lt_iff₀ hp]
        linarith
    rw [npMod, hfl]
    push_cast
    have hxneg : x < 0 := by nlinarith
    rw [abs_of_neg hxneg]
    rw [show x + 0.5 * p - p * (-1) - 0.5 * p = x + p by ring]
    rw [abs_of_nonneg (by linarith)]
    rw [min_eq_right (by linarith)]
    ring
  rcases lt_or_le x (0.5 * p) with hB | h2
  · have hfl : ⌊(x + 0.5 * p) / p⌋ = 0 := by
      rw [Int.floor_eq_iff]
      push_cast
      constructor
      · rw [le_div_iff₀ hp]
        linarith
      · rw [div_lt_iff₀ hp]
        linarith
    rw [npMod, hfl]
    push_cast
    rw [show x + 0.5 * p - p * 0 - 0.5 * p = x by ring]
    have habs : |x| ≤ 0.5 * p := abs_le.mpr ⟨by linarith, le_of_lt hB⟩
    rw [min_eq_left (by linarith)]
  · have hfl : ⌊(x + 0.5 * p) / p⌋ = 1 := by
      rw [Int.floor_eq_iff]
      push_cast
      constructor
      · rw [le_div_iff₀ hp]
        linarith
      · rw [div_lt_iff₀ hp]
        linarith
    rw [npMod, hfl]
    push_cast
    have hx0 : 0 ≤ x := by linarith
    rw [abs_of_nonneg hx0]
    rw [show x + 0.5 * p - p * 1 - 0.5 * p = x - p by ring]
    rw [abs_of_nonpos (by linarith)]
    rw [min_eq_right (by linarith)]
    ring

/-- C10 (amended): the optimized `angularDifference_opt` agrees with
`angularDifference_orig` for every recognized unit whenever the absolute
angle difference is at most one period; beyond one period they differ
(see the counterexample). -/
theorem angularDifference_opt_eq_orig (u : AngularUnits) (a0 a1 : ℝ)
    (h : |a1 - a0| ≤ periodDict u) :
    angularDifference_opt a0 a1 u = angularDifference_orig a0 a1 u := by
  have hp := periodDict_pos u
  have h' : |a0 - a1| ≤ periodDict u := by rwa [abs_sub_comm]
  calc angularDifference_opt a0 a1 u
      = min |a0 - a1| (periodDict u - |a0 - a1|) := by
        rw [angularDifference_opt, abs_sub_comm]
    _ = |npMod (a0 - a1 + 0.5 * periodDict u) (periodDict u)
          - 0.5 * periodDict u| := (npMod_shift_abs hp h').symm
    _ = angularDifference_orig a0 a1 u := rfl

theorem angularDifference_opt_eq_orig_witness :
    |(90 : ℝ) - 0| ≤ periodDict AngularUnits.degrees ∧
    angularDifference_opt 0 90 AngularUnits.degrees
      = angularDifference_orig 0 90 AngularUnits.degrees := by
  have h : |(90 : ℝ) - 0| ≤ periodDict AngularUnits.degrees := by
    rw [sub_zero, abs_of_nonneg (by norm_num : (0 : ℝ) ≤ 90)]
    norm_num [periodDict]
  exact ⟨h, angularDifference_opt_eq_orig AngularUnits.degrees 0 90 h⟩

/-- C10 as stated is false: for angles `0` and `361` in degrees the
absolute difference `361` exceeds the period, `angularDifference_opt`
returns `min(361, -1) = -1` while `angularDifference_orig` returns `1`. -/
theorem angularDifference_opt_ne_orig :
    angularDifference_opt 0 361 AngularUnits.degrees
      ≠ angularDifference_orig 0 361 AngularUnits.degrees := by
  have hopt : angularDifference_opt 0 361 AngularUnits.degrees = -1 := by
    rw [angularDifference_opt]
    simp only [periodDict]
    rw [show |(361 : ℝ) - 0| = 361 by
      rw [sub_zero]; exact abs_of_nonneg (by norm_num)]
    rw [show (360 : ℝ) - 361 = -1 by norm_num]
    exact min_eq_right (by norm_num)
  have horig : angularDifference_orig 0 361 AngularUnits.degrees = 1 := by
    rw [angularDifference_orig]
    simp only [periodDict]
    rw [npMod]
    rw [show ((0 : ℝ) - 361 + 0.5 * 360) / 360 = -181 / 360 by norm_num]
    have hfl : ⌊(-181 / 360 : ℝ)⌋ = -1 := by
      rw [Int.floor_eq_iff]
      push_cast
      norm_num
    rw [hfl]
    push_cast
    rw [show (0 : ℝ) - 361 + 0.5 * 360 - 360 * (-1) - 0.5 * 360 = -1 by norm_num]
    rw [abs_of_nonpos (by norm_num)]
    norm_num
  rw [hopt, horig]
  norm_num

end

end HexrdRot
